import Mathlib

/-!
Verification of the dependency-manifest editor core:
version grammars, version comparison, specifier validation,
the package-existence check, and the manifest editors.

Strings are modelled as Lean `String` / `List Char`.  Python primitives
(`str.strip`, `str.split`, `int`, list comparison, `re.match` of the
end-anchored patterns) are embedded explicitly below; a Python exception
(IndexError, ValueError from `int`) is modelled as `Option.none`.
-/

/-- The whitespace set of Python `str.strip()` (ASCII part). -/
def isPyWhitespace (c : Char) : Bool :=
  c = ' ' || c = '\t' || c = '\n' || c = '\r' || c = '\x0b' || c = '\x0c'

/-- Drop trailing whitespace characters (the right half of `str.strip()`). -/
def dropTrailingWs : List Char → List Char
  | [] => []
  | c :: cs =>
    match dropTrailingWs cs with
    | [] => if isPyWhitespace c then [] else [c]
    | r => c :: r

/-- Python `str.strip()` on a character list: remove leading and trailing whitespace. -/
def pyStripChars (l : List Char) : List Char :=
  dropTrailingWs (l.dropWhile isPyWhitespace)

/-- Python `str.strip()`. -/
def pyStrip (s : String) : String :=
  ⟨pyStripChars s.data⟩

/-- Python `str.split(sep)` for a one-character separator: always returns at
least one field; `"".split(sep) = [""]`. -/
def splitOnChar (sep : Char) : List Char → List (List Char)
  | [] => [[]]
  | c :: cs =>
    let r := splitOnChar sep cs
    if c = sep then [] :: r
    else
      match r with
      | [] => [[c]]
      | f :: rest => (c :: f) :: rest

/-- Python `sep.join(fields)` for a one-character separator. -/
def joinChar (sep : Char) : List (List Char) → List Char
  | [] => []
  | [l] => l
  | l :: ls => l ++ sep :: joinChar sep ls

/-- A decimal digit, modelling the regex class `\d` (ASCII range). -/
def isDigitChar (c : Char) : Bool :=
  '0' ≤ c && c ≤ '9'

/-- A non-empty run of decimal digits (`\d+`). -/
def digits1 (l : List Char) : Bool :=
  !l.isEmpty && l.all isDigitChar

/-- Numeric value of a digit run. -/
def digitsToNat (l : List Char) : Nat :=
  l.foldl (fun a c => a * 10 + (c.toNat - '0'.toNat)) 0

/-- Python `int(s)` on a decimal string: surrounding whitespace is tolerated,
then the remainder must be one or more digits (signs are not modelled; every
input reaching `int` here is unsigned).  `none` models the `ValueError`. -/
def pyInt (l : List Char) : Option Nat :=
  let t := pyStripChars l
  if digits1 t then some (digitsToNat t) else none

/-- Full match of the regex core `\d+(?:\.\d+)*` (the body of
`STRICT_VERSION_RE` without its anchors): every `.`-separated field is a
non-empty digit run. -/
def strictCoreMatch (l : List Char) : Bool :=
  (splitOnChar '.' l).all digits1

/-- Full match of the regex core `\d+(?:\.\d+)*(?:\.\*)?` (the body of
`WILDCARD_VERSION_RE` without its anchors). -/
def wildcardCoreMatch (l : List Char) : Bool :=
  strictCoreMatch l ||
    (match l.reverse with
     | '*' :: '.' :: rest => strictCoreMatch rest.reverse
     | _ => false)

/-- Python `re.match` of a pattern of the form `^core$` (no MULTILINE):
the match succeeds on the whole string, or on the whole string minus a
single final newline, because `$` also matches just before a newline at
the end of the string. -/
def reFullMatchDollar (core : List Char → Bool) (l : List Char) : Bool :=
  core l ||
    (match l.reverse with
     | '\n' :: rest => core rest.reverse
     | _ => false)

/-- `is_valid_strict_version` from `tasks/reqs_specs_file_setup.py`:
`bool(STRICT_VERSION_RE.match(v))` with `STRICT_VERSION_RE = ^\d+(?:\.\d+)*$`. -/
def is_valid_strict_version (v : String) : Bool :=
  reFullMatchDollar strictCoreMatch v.data

/-- `is_valid_wildcard_version` from `tasks/reqs_specs_file_setup.py`:
`bool(WILDCARD_VERSION_RE.match(v))` with
`WILDCARD_VERSION_RE = ^\d+(?:\.\d+)*(?:\.\*)?$`. -/
def is_valid_wildcard_version (v : String) : Bool :=
  reFullMatchDollar wildcardCoreMatch v.data

/-- Python list `<` on lists of naturals (lexicographic, shorter proper
position-wise-equal list is smaller). -/
def pyListLt : List Nat → List Nat → Bool
  | [], [] => false
  | [], _ :: _ => true
  | _ :: _, [] => false
  | x :: xs, y :: ys => if x < y then true else if y < x then false else pyListLt xs ys

/-- `list(map(int, v.split('.')))` from `compare_versions`: `none` models the
`ValueError` raised when any field is not an integer literal. -/
def versionNums (v : String) : Option (List Nat) :=
  let fields := splitOnChar '.' v.data
  if fields.all (fun f => (pyInt f).isSome) then
    some (fields.map (fun f => (pyInt f).getD 0))
  else none

/-- `compare_versions` from `tasks/reqs_specs_file_setup.py`:
`(nums1 > nums2) - (nums1 < nums2)` over the parsed integer lists
(Python `a > b` on lists is `b < a`).  `none` models an integer-parse
failure inside `map(int, ...)`. -/
def compare_versions (v1 v2 : String) : Option Int :=
  match versionNums v1, versionNums v2 with
  | some nums1, some nums2 =>
    some ((if pyListLt nums2 nums1 then (1 : Int) else 0) -
          (if pyListLt nums1 nums2 then (1 : Int) else 0))
  | _, _ => none

/-- Three-way lexicographic comparison of integer sequences, as the spec
words the comparison algorithm (no zero-padding of the shorter sequence). -/
def lexCompare : List Nat → List Nat → Int
  | [], [] => 0
  | [], _ :: _ => -1
  | _ :: _, [] => 1
  | x :: xs, y :: ys => if x < y then -1 else if y < x then 1 else lexCompare xs ys

/-- `is_valid_range_version` from `tasks/reqs_specs_file_setup.py`:
split on `,`, strip the first two fields, then
`is_valid_strict_version(v1) and is_valid_strict_version(v2) and
compare_versions(v1, v2) < 0` with Python short-circuit `and`.
`none` models the uncaught `IndexError` of `versions[1]` when the split
yields fewer than two fields, and a crash propagating out of
`compare_versions`. -/
def is_valid_range_version (v_specs : String) : Option Bool :=
  match splitOnChar ',' v_specs.data with
  | f1 :: f2 :: _ =>
    let v1 : String := ⟨pyStripChars f1⟩
    let v2 : String := ⟨pyStripChars f2⟩
    if !is_valid_strict_version v1 then some false
    else if !is_valid_strict_version v2 then some false
    else (compare_versions v1 v2).map (fun c => decide (c < 0))
  | _ => none

namespace VersionSpec

/-- `VersionSpec.EXACT` (IntEnum value). -/
def EXACT : Nat := 1

/-- `VersionSpec.EXCLUDED` (IntEnum value). -/
def EXCLUDED : Nat := 2

/-- `VersionSpec.MINIMUM` (IntEnum value). -/
def MINIMUM : Nat := 3

/-- `VersionSpec.MAXIMUM` (IntEnum value). -/
def MAXIMUM : Nat := 4

/-- `VersionSpec.RANGE` (IntEnum value). -/
def RANGE : Nat := 5

/-- `VersionSpec.COMPATIBLE` (IntEnum value). -/
def COMPATIBLE : Nat := 6

/-- `VersionSpec.LATEST` (IntEnum value). -/
def LATEST : Nat := 7

end VersionSpec

/-- `prompt_validate_specifier` from `tasks/reqs_specs_file_setup.py`.
Standard input is modelled as the list of lines the user will type, read in
order; `input(...)` on exhausted input (EOFError), and a crash inside
`is_valid_range_version`, are modelled as `none`.  Every branch strips the
raw input exactly as the source does. -/
def prompt_validate_specifier (choice : Nat) (stdin : List String) : Option (Bool × String) :=
  if choice = VersionSpec.EXACT then
    match stdin with
    | [] => none
    | raw :: _ =>
      let version_str := pyStrip raw
      some (is_valid_wildcard_version version_str, "==" ++ version_str)
  else if choice = VersionSpec.EXCLUDED then
    match stdin with
    | [] => none
    | raw :: _ =>
      let version_str := pyStrip raw
      some (is_valid_wildcard_version version_str, "!=" ++ version_str)
  else if choice = VersionSpec.MINIMUM then
    match stdin with
    | [] => none
    | raw :: _ =>
      let version_str := pyStrip raw
      some (is_valid_strict_version version_str, ">=" ++ version_str)
  else if choice = VersionSpec.MAXIMUM then
    match stdin with
    | [] => none
    | raw :: _ =>
      let version_str := pyStrip raw
      some (is_valid_strict_version version_str, "<=" ++ version_str)
  else if choice = VersionSpec.RANGE then
    match stdin with
    | raw1 :: raw2 :: _ =>
      let min_version := pyStrip raw1
      let max_version := pyStrip raw2
      let version_str := min_version ++ "," ++ max_version
      let spec := ">=" ++ min_version ++ ",<" ++ max_version
      (is_valid_range_version version_str).map (fun b => (b, spec))
    | _ => none
  else if choice = VersionSpec.COMPATIBLE then
    match stdin with
    | [] => none
    | raw :: _ =>
      let version_str := pyStrip raw
      some (is_valid_strict_version version_str, "~=" ++ version_str)
  else if choice = VersionSpec.LATEST then
    some (true, "")
  else
    some (false, "")

/-- `read_reqs_file` from `tasks/reqs_specs_file_setup.py`, as a function of
the file's content: `[line.strip() for line in f if line.strip()]`.
Iterating the file line by line and stripping each line is equivalent to
splitting the content on `'\n'`, stripping each field, and keeping the
non-empty results. -/
def read_reqs_file (content : List Char) : List (List Char) :=
  ((splitOnChar '\n' content).map pyStripChars).filter (fun l => !l.isEmpty)

/-- The file content written by the editor: `"\n".join(new_lines)`. -/
def joinNewline (lines : List (List Char)) : List Char :=
  joinChar '\n' lines

/-- `edit_reqs_file_specs` from `tasks/reqs_specs_file_setup.py`, as the list
of lines it writes.  `specOf` abstracts the interactive
`prompt_choices` / `ask_untill_validated` exchange: the specifier string
eventually returned for a flagged package. -/
def edit_reqs_file_specs (packages : List (List Char))
    (version_spec_pkgs invalid_pkgs : List (List Char))
    (specOf : List Char → List Char) : List (List Char) :=
  packages.filterMap (fun pkg =>
    if pkg ∈ invalid_pkgs then none
    else if pkg ∈ version_spec_pkgs then some (pkg ++ specOf pkg)
    else some pkg)

/-- Outcome of `urllib.request.urlopen` on the per-package index URL:
a successful response (its status code), a raised `HTTPError` (its status
code), or a raised `URLError` (DNS failure, connection refused, timeout). -/
inductive UrlOutcome
  | success (code : Nat)
  | httpError (code : Nat)
  | urlError
deriving DecidableEq, Repr

/-- `validate_pypi_package_exists` from `tasks/reqs_specs_file_setup.py`, as a
function of the network outcome: a successful response returns `True`; an
`HTTPError` returns `False` whether or not its code is 404 (the non-404
branch only prints a diagnostic before returning `False`); a `URLError`
prints and returns `False`. -/
def validate_pypi_package_exists : UrlOutcome → Bool
  | .success _ => true
  | .httpError code => if code = 404 then false else false
  | .urlError => false

/-- The spec's existence-check taxonomy. -/
inductive ExistenceStatus
  | Exists
  | NotFound
  | CheckFailed
deriving DecidableEq, Repr

/-- Modelled from the spec: the classification the spec assigns to each
network outcome — a successful (200-class) response is `Exists`, HTTP 404 is
`NotFound`, any other HTTP status or network-level failure is `CheckFailed`. -/
def classifyExistence : UrlOutcome → ExistenceStatus
  | .success _ => .Exists
  | .httpError code => if code = 404 then .NotFound else .CheckFailed
  | .urlError => .CheckFailed

namespace ValidatePkgsNames

/-- `pypi_package_exists` from `tasks/validate_pkgs_names.py`: identical
outcome classification to `validate_pypi_package_exists` (only the queried
URL differs). -/
def pypi_package_exists : UrlOutcome → Bool
  | .success _ => true
  | .httpError code => if code = 404 then false else false
  | .urlError => false

/-- `validate_reqs_pkgs` from `tasks/validate_pkgs_names.py`.
`package_exists` abstracts the boolean result of `pypi_package_exists` for
each name (a function of the name, covering every possible network
behaviour).  A package is kept iff the check returns `True` and the name is
not in `["pip", "pip3"]`; otherwise its line is replaced by the
commented-out diagnostic. -/
def validate_reqs_pkgs (package_exists : String → Bool) (packages : List String) : List String :=
  packages.map (fun pkg =>
    if package_exists pkg && !(pkg = "pip" || pkg = "pip3") then pkg
    else "# " ++ pkg ++ " - Invalid package name")

end ValidatePkgsNames

theorem splitOnChar_ne_nil (sep : Char) (l : List Char) : splitOnChar sep l ≠ [] := by
  induction l with
  | nil => simp [splitOnChar]
  | cons c cs ih =>
    simp only [splitOnChar]
    by_cases h : c = sep
    · simp [h]
    · simp only [h, if_false]
      cases splitOnChar sep cs with
      | nil => simp
      | cons f rest => simp

theorem sep_not_mem_of_mem_splitOnChar {sep : Char} {l f : List Char}
    (hf : f ∈ splitOnChar sep l) : sep ∉ f := by
  induction l generalizing f with
  | nil =>
    simp [splitOnChar] at hf
    simp [hf]
  | cons c cs ih =>
    simp only [splitOnChar] at hf
    by_cases h : c = sep
    · simp only [h, if_true] at hf
      rcases List.mem_cons.mp hf with h1 | h1
      · simp [h1]
      · exact ih h1
    · simp only [h, if_false] at hf
      rcases hr : splitOnChar sep cs with _ | ⟨f0, rest⟩
      · exact absurd hr (splitOnChar_ne_nil sep cs)
      · rw [hr] at hf
        rcases List.mem_cons.mp hf with h1 | h1
        · subst h1
          intro hmem
          rcases List.mem_cons.mp hmem with h2 | h2
          · exact h h2.symm
          · exact ih (hr ▸ List.mem_cons_self f0 rest) h2
        · exact ih (hr ▸ List.mem_cons_of_mem f0 h1)

theorem splitOnChar_of_not_mem {sep : Char} {l : List Char} (h : sep ∉ l) :
    splitOnChar sep l = [l] := by
  induction l with
  | nil => rfl
  | cons c cs ih =>
    have hc : ¬(c = sep) := fun hh => h (hh ▸ List.mem_cons_self c cs)
    have hcs : sep ∉ cs := fun hh => h (List.mem_cons_of_mem c hh)
    simp only [splitOnChar, hc, if_false, ih hcs]

theorem splitOnChar_append_sep {sep : Char} {l : List Char} (h : sep ∉ l) (r : List Char) :
    splitOnChar sep (l ++ sep :: r) = l :: splitOnChar sep r := by
  induction l with
  | nil => simp [splitOnChar]
  | cons c cs ih =>
    have hc : ¬(c = sep) := fun hh => h (hh ▸ List.mem_cons_self c cs)
    have hcs : sep ∉ cs := fun hh => h (List.mem_cons_of_mem c hh)
    simp only [List.cons_append, splitOnChar, hc, if_false, List.append_eq, ih hcs]

theorem joinChar_splitOnChar (sep : Char) (l : List Char) :
    joinChar sep (splitOnChar sep l) = l := by
  induction l with
  | nil => rfl
  | cons c cs ih =>
    simp only [splitOnChar]
    by_cases h : c = sep
    · simp only [h, if_true]
      rcases hr : splitOnChar sep cs with _ | ⟨f0, rest⟩
      · exact absurd hr (splitOnChar_ne_nil sep cs)
      · rw [hr] at ih
        simp [joinChar, ih]
    · simp only [h, if_false]
      rcases hr : splitOnChar sep cs with _ | ⟨f0, rest⟩
      · exact absurd hr (splitOnChar_ne_nil sep cs)
      · rw [hr] at ih
        cases rest with
        | nil => simpa [joinChar] using congrArg (c :: ·) ih
        | cons g gs =>
          simp only [joinChar] at ih ⊢
          simp [← ih]

theorem splitOnChar_joinChar {sep : Char} {lines : List (List Char)}
    (hne : lines ≠ []) (h : ∀ l ∈ lines, sep ∉ l) :
    splitOnChar sep (joinChar sep lines) = lines := by
  induction lines with
  | nil => exact absurd rfl hne
  | cons l ls ih =>
    cases ls with
    | nil =>
      simp only [joinChar]
      exact splitOnChar_of_not_mem (h l (List.mem_cons_self l []))
    | cons g gs =>
      have hl : sep ∉ l := h l (List.mem_cons_self l (g :: gs))
      have hrest : ∀ x ∈ g :: gs, sep ∉ x := fun x hx => h x (List.mem_cons_of_mem l hx)
      simp only [joinChar]
      rw [splitOnChar_append_sep hl]
      rw [ih (by simp) hrest]

theorem splitOnChar_append_no_sep (sep : Char) (l r : List Char) (h : sep ∉ r) :
    ∃ fs f, splitOnChar sep l = fs ++ [f] ∧ splitOnChar sep (l ++ r) = fs ++ [f ++ r] := by
  induction l with
  | nil =>
    refine ⟨[], [], rfl, ?_⟩
    simpa using splitOnChar_of_not_mem h
  | cons c cs ih =>
    rcases ih with ⟨fs, f, h1, h2⟩
    by_cases hc : c = sep
    · exact ⟨[] :: fs, f, by simp [splitOnChar, hc, h1], by simp [splitOnChar, hc, h2]⟩
    · cases fs with
      | nil =>
        refine ⟨[], c :: f, ?_, ?_⟩
        · simp only [List.nil_append] at h1
          simp [splitOnChar, hc, h1]
        · simp only [List.nil_append] at h2
          simp [splitOnChar, hc, h2]
      | cons g gs =>
        refine ⟨(c :: g) :: gs, f, ?_, ?_⟩
        · simp only [List.cons_append] at h1
          simp [splitOnChar, hc, h1]
        · simp only [List.cons_append] at h2
          simp [splitOnChar, hc, h2]

theorem mem_of_mem_joinChar {sep c : Char} {fields : List (List Char)}
    (h : c ∈ joinChar sep fields) : c = sep ∨ ∃ f ∈ fields, c ∈ f := by
  induction fields with
  | nil => simp [joinChar] at h
  | cons l ls ih =>
    cases ls with
    | nil =>
      simp only [joinChar] at h
      exact Or.inr ⟨l, List.mem_cons_self l [], h⟩
    | cons g gs =>
      simp only [joinChar] at h
      rcases List.mem_append.mp h with h1 | h1
      · exact Or.inr ⟨l, List.mem_cons_self l (g :: gs), h1⟩
      · rcases List.mem_cons.mp h1 with h2 | h2
        · exact Or.inl h2
        · rcases ih h2 with h3 | ⟨f, hf, hcf⟩
          · exact Or.inl h3
          · exact Or.inr ⟨f, List.mem_cons_of_mem l hf, hcf⟩

theorem splitOnChar_two_fields {sep : Char} {l : List Char} (h : sep ∈ l) :
    ∃ a b rest, splitOnChar sep l = a :: b :: rest := by
  induction l with
  | nil => simp at h
  | cons c cs ih =>
    by_cases hc : c = sep
    · rcases hr : splitOnChar sep cs with _ | ⟨f0, rest⟩
      · exact absurd hr (splitOnChar_ne_nil sep cs)
      · exact ⟨[], f0, rest, by simp [splitOnChar, hc, hr]⟩
    · have hcs : sep ∈ cs := by
        rcases List.mem_cons.mp h with h1 | h1
        · exact absurd h1.symm hc
        · exact h1
      rcases ih hcs with ⟨a, b, rest, hr⟩
      exact ⟨c :: a, b, rest, by simp [splitOnChar, hc, hr]⟩

theorem mem_of_mem_dropTrailingWs {c : Char} {l : List Char}
    (h : c ∈ dropTrailingWs l) : c ∈ l := by
  induction l with
  | nil => simp [dropTrailingWs] at h
  | cons a as ih =>
    simp only [dropTrailingWs] at h
    rcases hr : dropTrailingWs as with _ | ⟨b, bs⟩
    · rw [hr] at h
      by_cases hw : isPyWhitespace a
      · simp [hw] at h
      · simp [hw] at h
        simp [h]
    · rw [hr] at h
      rcases List.mem_cons.mp h with h1 | h1
      · simp [h1]
      · exact List.mem_cons_of_mem a (ih (hr ▸ h1))

theorem dropTrailingWs_cons_shape (a : Char) (l : List Char) :
    dropTrailingWs (a :: l) = [] ∨ ∃ t, dropTrailingWs (a :: l) = a :: t := by
  simp only [dropTrailingWs]
  rcases dropTrailingWs l with _ | ⟨b, bs⟩
  · by_cases hw : isPyWhitespace a
    · simp [hw]
    · simp [hw]
  · exact Or.inr ⟨b :: bs, rfl⟩

theorem dropTrailingWs_cons_eq (a : Char) (l : List Char) :
    dropTrailingWs (a :: l) =
      match dropTrailingWs l with
      | [] => if isPyWhitespace a then [] else [a]
      | r => a :: r := rfl

theorem dropTrailingWs_idem (l : List Char) :
    dropTrailingWs (dropTrailingWs l) = dropTrailingWs l := by
  induction l with
  | nil => rfl
  | cons a as ih =>
    rw [dropTrailingWs_cons_eq]
    rcases hr : dropTrailingWs as with _ | ⟨b, bs⟩
    · by_cases hw : isPyWhitespace a
      · simp [hw, dropTrailingWs]
      · simp [hw, dropTrailingWs]
    · rw [hr] at ih
      rw [dropTrailingWs_cons_eq, ih]

theorem dropTrailingWs_of_no_ws {l : List Char}
    (h : ∀ c ∈ l, isPyWhitespace c = false) : dropTrailingWs l = l := by
  induction l with
  | nil => rfl
  | cons a as ih =>
    have ha : isPyWhitespace a = false := h a (List.mem_cons_self a as)
    have has : ∀ c ∈ as, isPyWhitespace c = false := fun c hc => h c (List.mem_cons_of_mem a hc)
    simp only [dropTrailingWs, ih has]
    cases as with
    | nil => simp [ha]
    | cons b bs => rfl

theorem dropWhile_of_no_ws {l : List Char}
    (h : ∀ c ∈ l, isPyWhitespace c = false) : l.dropWhile isPyWhitespace = l := by
  cases l with
  | nil => rfl
  | cons a as => simp [List.dropWhile_cons, h a (List.mem_cons_self a as)]

theorem pyStripChars_of_no_ws {l : List Char}
    (h : ∀ c ∈ l, isPyWhitespace c = false) : pyStripChars l = l := by
  rw [pyStripChars, dropWhile_of_no_ws h, dropTrailingWs_of_no_ws h]

theorem mem_of_mem_pyStripChars {c : Char} {l : List Char}
    (h : c ∈ pyStripChars l) : c ∈ l := by
  have h1 := mem_of_mem_dropTrailingWs h
  exact (List.dropWhile_sublist isPyWhitespace).mem h1

theorem pyStripChars_idem (l : List Char) :
    pyStripChars (pyStripChars l) = pyStripChars l := by
  rw [pyStripChars, pyStripChars]
  have hdw : (dropTrailingWs (l.dropWhile isPyWhitespace)).dropWhile isPyWhitespace =
      dropTrailingWs (l.dropWhile isPyWhitespace) := by
    rcases hm : l.dropWhile isPyWhitespace with _ | ⟨a, as⟩
    · simp [dropTrailingWs]
    · have ha : isPyWhitespace a = false := by
        have h2 := List.head_dropWhile_not isPyWhitespace l
        simp [hm] at h2
        exact h2
      rcases dropTrailingWs_cons_shape a as with h1 | ⟨t, h1⟩
      · simp [h1]
      · simp [h1, List.dropWhile_cons, ha]
  rw [hdw, dropTrailingWs_idem]

theorem dropTrailingWs_append_ws {l : List Char} {w : Char}
    (h : ∀ c ∈ l, isPyWhitespace c = false) (hw : isPyWhitespace w = true) :
    dropTrailingWs (l ++ [w]) = l := by
  induction l with
  | nil => simp [dropTrailingWs, hw]
  | cons a as ih =>
    have ha : isPyWhitespace a = false := h a (List.mem_cons_self a as)
    have has : ∀ c ∈ as, isPyWhitespace c = false := fun c hc => h c (List.mem_cons_of_mem a hc)
    rw [List.cons_append, dropTrailingWs_cons_eq, ih has]
    cases as with
    | nil => simp [ha]
    | cons b bs => rfl

theorem not_ws_of_digit {c : Char} (h : isDigitChar c = true) : isPyWhitespace c = false := by
  by_contra hne
  have hw : isPyWhitespace c = true := by
    cases hx : isPyWhitespace c
    · exact absurd hx hne
    · rfl
  simp only [isPyWhitespace, Bool.or_eq_true, decide_eq_true_eq] at hw
  rcases hw with ((((h1 | h1) | h1) | h1) | h1) | h1 <;>
    · subst h1
      simp [isDigitChar] at h

theorem digits1_no_ws {f : List Char} (h : digits1 f = true) :
    ∀ c ∈ f, isPyWhitespace c = false := by
  intro c hc
  simp only [digits1, Bool.and_eq_true, List.all_eq_true] at h
  exact not_ws_of_digit (h.2 c hc)

theorem pyInt_digits {f : List Char} (h : digits1 f = true) :
    pyInt f = some (digitsToNat f) := by
  rw [pyInt]
  rw [pyStripChars_of_no_ws (digits1_no_ws h)]
  simp [h]

theorem pyInt_digits_newline {f : List Char} (h : digits1 f = true) :
    pyInt (f ++ ['\n']) = some (digitsToNat f) := by
  rw [pyInt]
  have hstrip : pyStripChars (f ++ ['\n']) = f := by
    rw [pyStripChars]
    have hdw : (f ++ ['\n']).dropWhile isPyWhitespace = f ++ ['\n'] := by
      cases f with
      | nil =>
        simp only [digits1] at h
        simp at h
      | cons a as =>
        simp [List.dropWhile_cons,
          digits1_no_ws h a (List.mem_cons_self a as)]
    rw [hdw]
    exact dropTrailingWs_append_ws (digits1_no_ws h) (by simp [isPyWhitespace])
  rw [hstrip]
  simp [h]

theorem mem_strictCore_digit_or_dot {l : List Char} (h : strictCoreMatch l = true) :
    ∀ c ∈ l, isDigitChar c = true ∨ c = '.' := by
  intro c hc
  rw [strictCoreMatch, List.all_eq_true] at h
  rw [← joinChar_splitOnChar '.' l] at hc
  rcases mem_of_mem_joinChar hc with h1 | ⟨f, hf, hcf⟩
  · exact Or.inr h1
  · have hd := h f hf
    simp only [digits1, Bool.and_eq_true, List.all_eq_true] at hd
    exact Or.inl (hd.2 c hcf)

theorem star_not_mem_strictCore {l : List Char} (h : strictCoreMatch l = true) :
    '*' ∉ l := by
  intro hc
  rcases mem_strictCore_digit_or_dot h '*' hc with h1 | h1
  · simp [isDigitChar] at h1
  · simp at h1

theorem newline_not_mem_strictCore {l : List Char} (h : strictCoreMatch l = true) :
    '\n' ∉ l := by
  intro hc
  rcases mem_strictCore_digit_or_dot h '\n' hc with h1 | h1
  · simp [isDigitChar] at h1
  · simp at h1

theorem strictCore_false_of_star {l : List Char} (h : '*' ∈ l) :
    strictCoreMatch l = false := by
  cases hx : strictCoreMatch l
  · rfl
  · exact absurd h (star_not_mem_strictCore hx)

theorem wildcardCore_cases {l : List Char} (h : wildcardCoreMatch l = true) :
    strictCoreMatch l = true ∨ ∃ t, l = t ++ ['.', '*'] ∧ strictCoreMatch t = true := by
  rw [wildcardCoreMatch, Bool.or_eq_true] at h
  rcases h with h | h
  · exact Or.inl h
  · rcases hr : l.reverse with _ | ⟨c1, rest1⟩
    · rw [hr] at h
      simp at h
    · rcases rest1 with _ | ⟨c2, rest2⟩
      · rw [hr] at h
        by_cases h1 : c1 = '*' <;> simp [h1] at h
      · rw [hr] at h
        by_cases h1 : c1 = '*'
        · by_cases h2 : c2 = '.'
          · subst h1; subst h2
            simp only at h
            refine Or.inr ⟨rest2.reverse, ?_, h⟩
            have : l = l.reverse.reverse := (List.reverse_reverse l).symm
            rw [this, hr]
            simp
          · simp [h1, h2] at h
        · simp [h1] at h

theorem wildcardCore_star_shape {l : List Char} (h : wildcardCoreMatch l = true) :
    '*' ∉ l ∨ ∃ t, l = t ++ ['.', '*'] ∧ '*' ∉ t := by
  rcases wildcardCore_cases h with h1 | ⟨t, ht, hstrict⟩
  · exact Or.inl (star_not_mem_strictCore h1)
  · exact Or.inr ⟨t, ht, star_not_mem_strictCore hstrict⟩

theorem wildcardCore_of_strict_dotstar {t : List Char} (h : strictCoreMatch t = true) :
    wildcardCoreMatch (t ++ ['.', '*']) = true := by
  rw [wildcardCoreMatch]
  have hrev : (t ++ ['.', '*']).reverse = '*' :: '.' :: t.reverse := by simp
  rw [hrev]
  simp only [List.reverse_reverse]
  simp [h]

theorem reFullMatchDollar_cases {core : List Char → Bool} {l : List Char}
    (h : reFullMatchDollar core l = true) :
    core l = true ∨ ∃ t, l = t ++ ['\n'] ∧ core t = true := by
  rw [reFullMatchDollar, Bool.or_eq_true] at h
  rcases h with h | h
  · exact Or.inl h
  · rcases hr : l.reverse with _ | ⟨c1, rest1⟩
    · rw [hr] at h
      simp at h
    · rw [hr] at h
      by_cases h1 : c1 = '\n'
      · subst h1
        simp only at h
        refine Or.inr ⟨rest1.reverse, ?_, h⟩
        have : l = l.reverse.reverse := (List.reverse_reverse l).symm
        rw [this, hr]
        simp
      · simp [h1] at h

theorem reFullMatchDollar_of_core {core : List Char → Bool} {l : List Char}
    (h : core l = true) : reFullMatchDollar core l = true := by
  rw [reFullMatchDollar, h, Bool.true_or]

theorem versionNums_isSome_of_strict {s : String} (h : is_valid_strict_version s = true) :
    ∃ ns, versionNums s = some ns := by
  rw [is_valid_strict_version] at h
  rcases reFullMatchDollar_cases h with h1 | ⟨t, ht, h1⟩
  · rw [versionNums]
    rw [strictCoreMatch, List.all_eq_true] at h1
    have hall : (splitOnChar '.' s.data).all (fun f => (pyInt f).isSome) = true := by
      rw [List.all_eq_true]
      intro f hf
      rw [pyInt_digits (h1 f hf)]
      rfl
    simp [hall]
  · rcases splitOnChar_append_no_sep '.' t ['\n'] (by simp) with ⟨fs, f, hsplit, happ⟩
    rw [versionNums, ht, happ]
    rw [strictCoreMatch, hsplit, List.all_eq_true] at h1
    have hf : digits1 f = true := h1 f (by simp)
    have hfs : ∀ g ∈ fs, digits1 g = true := fun g hg => h1 g (by simp [hg])
    have hall : (fs ++ [f ++ ['\n']]).all (fun g => (pyInt g).isSome) = true := by
      rw [List.all_eq_true]
      intro g hg
      rcases List.mem_append.mp hg with h2 | h2
      · rw [pyInt_digits (hfs g h2)]
        rfl
      · simp only [List.mem_singleton] at h2
        subst h2
        rw [pyInt_digits_newline hf]
        rfl
    simp [hall]

theorem compare_versions_isSome_of_strict {v1 v2 : String}
    (h1 : is_valid_strict_version v1 = true) (h2 : is_valid_strict_version v2 = true) :
    ∃ c, compare_versions v1 v2 = some c := by
  rcases versionNums_isSome_of_strict h1 with ⟨n1, hn1⟩
  rcases versionNums_isSome_of_strict h2 with ⟨n2, hn2⟩
  rw [compare_versions, hn1, hn2]
  exact ⟨_, rfl⟩

theorem pyCmp_eq_lexCompare (xs ys : List Nat) :
    ((if pyListLt ys xs then (1 : Int) else 0) -
     (if pyListLt xs ys then (1 : Int) else 0)) = lexCompare xs ys := by
  induction xs generalizing ys with
  | nil =>
    cases ys with
    | nil => simp [pyListLt, lexCompare]
    | cons y ys' => simp [pyListLt, lexCompare]
  | cons x xs' ih =>
    cases ys with
    | nil => simp [pyListLt, lexCompare]
    | cons y ys' =>
      rcases Nat.lt_trichotomy x y with hlt | heq | hgt
      · have hnot : ¬(y < x) := Nat.lt_asymm hlt
        simp [pyListLt, lexCompare, hlt, hnot]
      · subst heq
        simp only [pyListLt, lexCompare, Nat.lt_irrefl, if_false]
        exact ih ys'
      · have hnot : ¬(x < y) := Nat.lt_asymm hgt
        simp [pyListLt, lexCompare, hgt, hnot]

theorem read_reqs_file_mem {c l : List Char} (h : l ∈ read_reqs_file c) :
    pyStripChars l = l ∧ '\n' ∉ l ∧ l ≠ [] := by
  rw [read_reqs_file] at h
  rw [List.mem_filter] at h
  rcases h with ⟨hmem, hne⟩
  rw [List.mem_map] at hmem
  rcases hmem with ⟨x, hx, hlx⟩
  subst hlx
  refine ⟨pyStripChars_idem x, ?_, ?_⟩
  · intro hnl
    exact sep_not_mem_of_mem_splitOnChar hx (mem_of_mem_pyStripChars hnl)
  · intro hnil
    rw [hnil] at hne
    simp at hne

theorem read_reqs_file_join {lines : List (List Char)}
    (h : ∀ l ∈ lines, pyStripChars l = l ∧ '\n' ∉ l ∧ l ≠ []) :
    read_reqs_file (joinNewline lines) = lines := by
  cases lines with
  | nil => rfl
  | cons l ls =>
    rw [read_reqs_file, joinNewline]
    rw [splitOnChar_joinChar (by simp) (fun x hx => (h x hx).2.1)]
    have hmap : (l :: ls).map pyStripChars = l :: ls := by
      have := List.map_congr_left (l := l :: ls) (f := pyStripChars) (g := id)
        (fun x hx => (h x hx).1)
      rw [this, List.map_id]
    rw [hmap]
    apply List.filter_eq_self.mpr
    intro a ha
    have := (h a ha).2.2
    simp [this]

theorem edit_reqs_file_specs_id (packages : List (List Char)) (specOf : List Char → List Char) :
    edit_reqs_file_specs packages [] [] specOf = packages := by
  rw [edit_reqs_file_specs]
  simp

theorem reFullMatchDollar_of_newline {core : List Char → Bool} {t : List Char}
    (h : core t = true) : reFullMatchDollar core (t ++ ['\n']) = true := by
  rw [reFullMatchDollar]
  have hrev : (t ++ ['\n']).reverse = '\n' :: t.reverse := by simp
  rw [hrev]
  simp only [List.reverse_reverse]
  rw [h]
  simp

/-- C1 (counterexample): an HTTP 503 outcome classifies as `CheckFailed` and a
404 as `NotFound`, yet both existence-check functions return the same boolean
`false` for the two outcomes — a transient failure is reported to the caller
exactly like a definitive absence, so `CheckFailed` is not surfaced distinctly. -/
theorem transient_failure_conflated_with_not_found :
    classifyExistence (.httpError 503) = .CheckFailed ∧
    classifyExistence (.httpError 404) = .NotFound ∧
    validate_pypi_package_exists (.httpError 503) =
      validate_pypi_package_exists (.httpError 404) ∧
    validate_pypi_package_exists (.httpError 503) = false ∧
    ValidatePkgsNames.pypi_package_exists (.httpError 503) = false := by
  decide

/-- C1 (amended): the existence check classifies a successful response as
existing (`True`), and returns `False` exactly when the spec taxonomy says
`NotFound` or `CheckFailed` — i.e. an HTTP 404, any other HTTP error status,
and any network-level failure all surface as the same `False`; both call
sites behave identically. -/
theorem existence_check_boolean_classification :
    (∀ o : UrlOutcome, validate_pypi_package_exists o = true ↔
        classifyExistence o = .Exists) ∧
    (∀ o : UrlOutcome, validate_pypi_package_exists o = false ↔
        (classifyExistence o = .NotFound ∨ classifyExistence o = .CheckFailed)) ∧
    (∀ o : UrlOutcome, ValidatePkgsNames.pypi_package_exists o =
        validate_pypi_package_exists o) := by
  refine ⟨?_, ?_, ?_⟩
  · intro o
    cases o with
    | success code => simp [validate_pypi_package_exists, classifyExistence]
    | httpError code =>
      by_cases hc : code = 404 <;>
        simp [validate_pypi_package_exists, classifyExistence, hc]
    | urlError => simp [validate_pypi_package_exists, classifyExistence]
  · intro o
    cases o with
    | success code => simp [validate_pypi_package_exists, classifyExistence]
    | httpError code =>
      by_cases hc : code = 404 <;>
        simp [validate_pypi_package_exists, classifyExistence, hc]
    | urlError => simp [validate_pypi_package_exists, classifyExistence]
  · intro o
    cases o <;> rfl

/-- C2: on a Range input with no comma (fewer than two comma-separated
fields), `is_valid_range_version` hits `versions[1]` on a one-element list:
the `IndexError` is not guarded, so validation crashes (modelled `none`)
instead of returning an invalid result. -/
theorem range_missing_comma_crashes : is_valid_range_version "1.0" = none := by
  decide

/-- C3: a line beginning with `#` is not passed through: the
existence-check-integrated editor subjects it to the existence check (the
output depends on the check's verdict for the comment line itself) and, when
the check fails, rewrites it into a commented-out diagnostic line; the
specifier editor drops a comment line flagged invalid instead of passing it
through. -/
theorem comment_line_checked_and_altered :
    ValidatePkgsNames.validate_reqs_pkgs (fun _ => false) ["# tools"] =
      ["# # tools - Invalid package name"] ∧
    ValidatePkgsNames.validate_reqs_pkgs (fun _ => true) ["# tools"] = ["# tools"] ∧
    edit_reqs_file_specs ["# tools".data] [] ["# tools".data] (fun _ => []) = [] := by
  decide

/-- C9: whatever the existence check answers — in particular when it reports
that the package exists — a package named `pip` or `pip3` is always replaced
by the commented-out diagnostic line, at any position in the manifest. -/
theorem denylist_always_excluded (package_exists : String → Bool)
    (pre post : List String) (pkg : String) (h : pkg = "pip" ∨ pkg = "pip3") :
    ValidatePkgsNames.validate_reqs_pkgs package_exists (pre ++ pkg :: post) =
      ValidatePkgsNames.validate_reqs_pkgs package_exists pre ++
        ("# " ++ pkg ++ " - Invalid package name") ::
          ValidatePkgsNames.validate_reqs_pkgs package_exists post := by
  rw [ValidatePkgsNames.validate_reqs_pkgs, List.map_append, List.map_cons]
  rcases h with h | h <;> subst h <;>
    simp [ValidatePkgsNames.validate_reqs_pkgs]

/-- Witness for C9 at a concrete input: `pip` with an index that reports
every package as existing is still excluded. -/
theorem denylist_always_excluded_witness :
    ValidatePkgsNames.validate_reqs_pkgs (fun _ => true) ([] ++ "pip" :: []) =
      ValidatePkgsNames.validate_reqs_pkgs (fun _ => true) [] ++
        ("# " ++ "pip" ++ " - Invalid package name") ::
          ValidatePkgsNames.validate_reqs_pkgs (fun _ => true) [] :=
  denylist_always_excluded (fun _ => true) [] [] "pip" (Or.inl rfl)

/-- C10: both validators accept a version string followed by exactly one
trailing newline (`$` of the host regex matches before a final newline),
while the literal anchored cores reject it; every string of the literal
languages is also accepted, so the accepted languages are strictly larger. -/
theorem trailing_newline_accepted :
    is_valid_strict_version "1.2\n" = true ∧
    strictCoreMatch "1.2\n".data = false ∧
    is_valid_wildcard_version "1.2.*\n" = true ∧
    wildcardCoreMatch "1.2.*\n".data = false ∧
    (∀ s : String, strictCoreMatch s.data = true → is_valid_strict_version s = true) ∧
    (∀ s : String, wildcardCoreMatch s.data = true → is_valid_wildcard_version s = true) := by
  refine ⟨by decide, by decide, by decide, by decide, ?_, ?_⟩
  · intro s h
    rw [is_valid_strict_version]
    exact reFullMatchDollar_of_core h
  · intro s h
    rw [is_valid_wildcard_version]
    exact reFullMatchDollar_of_core h

/-- Witness for C10's inclusion parts at a concrete input. -/
theorem trailing_newline_accepted_witness :
    is_valid_strict_version "7" = true ∧ is_valid_wildcard_version "7.0.*" = true :=
  ⟨trailing_newline_accepted.2.2.2.2.1 "7" (by decide),
   trailing_newline_accepted.2.2.2.2.2 "7.0.*" (by decide)⟩

/-- C4: `compare_versions` splits on `.`, parses integer components, and
returns exactly the lexicographic three-way comparison of the two integer
sequences, with no zero-padding; the spec's concrete examples hold and
`1.2` vs `1.2.0` compare as unequal. -/
theorem compare_versions_lexicographic :
    (∀ (v1 v2 : String) (n1 n2 : List Nat),
        versionNums v1 = some n1 → versionNums v2 = some n2 →
        compare_versions v1 v2 = some (lexCompare n1 n2)) ∧
    compare_versions "1.2.3" "1.2.4" = some (-1) ∧
    compare_versions "2.0" "1.9.9" = some 1 ∧
    compare_versions "1.0" "1.0" = some 0 ∧
    ¬compare_versions "1.2" "1.2.0" = some 0 := by
  refine ⟨?_, by decide, by decide, by decide, by decide⟩
  intro v1 v2 n1 n2 h1 h2
  simp only [compare_versions, h1, h2]
  rw [pyCmp_eq_lexCompare]

/-- Witness for C4's general part at a concrete input. -/
theorem compare_versions_lexicographic_witness :
    compare_versions "1.2" "1.2.0" = some (lexCompare [1, 2] [1, 2, 0]) :=
  compare_versions_lexicographic.1 "1.2" "1.2.0" [1, 2] [1, 2, 0] (by decide) (by decide)

/-- C5 (counterexample): `"1.*\n"` has its `*` in a non-final position
(index 2 of 4), yet `is_valid_wildcard_version` accepts it, because the
regex `$` matches before the final newline; so a `*` in a non-final position
is not always rejected. -/
theorem wildcard_star_before_final_newline_accepted :
    is_valid_wildcard_version "1.*\n" = true ∧
    is_valid_strict_version "1.*\n" = false ∧
    "1.*\n".data = ['1', '.', '*', '\n'] := by
  decide

/-- C5 (amended): every string accepted by the strict validator is accepted
by the wildcard validator; appending `.*` to a literal-grammar strict version
is wildcard-valid but not strict-valid; a strict-accepted string never
contains `*`; and in a wildcard-accepted string a `*` can occur only inside
a final `.*` suffix, possibly followed by a single trailing newline. -/
theorem wildcard_grammar_amended :
    (∀ s : String, is_valid_strict_version s = true → is_valid_wildcard_version s = true) ∧
    (∀ s : String, strictCoreMatch s.data = true →
        is_valid_wildcard_version (s ++ ".*") = true ∧
        is_valid_strict_version (s ++ ".*") = false) ∧
    (∀ s : String, is_valid_strict_version s = true → '*' ∉ s.data) ∧
    (∀ s : String, is_valid_wildcard_version s = true →
        '*' ∉ s.data ∨ (∃ t, s.data = t ++ ['.', '*'] ∧ '*' ∉ t) ∨
          ∃ t, s.data = t ++ ['.', '*', '\n'] ∧ '*' ∉ t) := by
  refine ⟨?_, ?_, ?_, ?_⟩
  · intro s h
    rw [is_valid_strict_version] at h
    rw [is_valid_wildcard_version]
    rcases reFullMatchDollar_cases h with h1 | ⟨t, ht, h1⟩
    · apply reFullMatchDollar_of_core
      rw [wildcardCoreMatch, h1, Bool.true_or]
    · rw [ht]
      apply reFullMatchDollar_of_newline
      rw [wildcardCoreMatch, h1, Bool.true_or]
  · intro s h
    have hdata : (s ++ ".*").data = s.data ++ ['.', '*'] := by
      rw [String.data_append]
    constructor
    · rw [is_valid_wildcard_version, hdata]
      exact reFullMatchDollar_of_core (wildcardCore_of_strict_dotstar h)
    · cases hx : is_valid_strict_version (s ++ ".*") with
      | false => rfl
      | true =>
        exfalso
        rw [is_valid_strict_version, hdata] at hx
        rcases reFullMatchDollar_cases hx with h1 | ⟨t, ht, h1⟩
        · exact star_not_mem_strictCore h1 (by simp)
        · have hrev := congrArg List.reverse ht
          simp at hrev
  · intro s h
    rw [is_valid_strict_version] at h
    rcases reFullMatchDollar_cases h with h1 | ⟨t, ht, h1⟩
    · exact star_not_mem_strictCore h1
    · rw [ht]
      intro hmem
      rcases List.mem_append.mp hmem with h2 | h2
      · exact star_not_mem_strictCore h1 h2
      · simp at h2
  · intro s h
    rw [is_valid_wildcard_version] at h
    rcases reFullMatchDollar_cases h with h1 | ⟨m, hm, h1⟩
    · rcases wildcardCore_star_shape h1 with h2 | ⟨t, ht, h2⟩
      · exact Or.inl h2
      · exact Or.inr (Or.inl ⟨t, ht, h2⟩)
    · rcases wildcardCore_star_shape h1 with h2 | ⟨t, ht, h2⟩
      · refine Or.inl ?_
        rw [hm]
        intro hmem
        rcases List.mem_append.mp hmem with h3 | h3
        · exact h2 h3
        · simp at h3
      · refine Or.inr (Or.inr ⟨t, ?_, h2⟩)
        rw [hm, ht]
        simp

/-- Witness for C5's amended parts at a concrete input. -/
theorem wildcard_grammar_amended_witness :
    is_valid_wildcard_version ("1.2" ++ ".*") = true ∧
    is_valid_strict_version ("1.2" ++ ".*") = false :=
  wildcard_grammar_amended.2.1 "1.2" (by decide)

/-- C7: with no names flagged for a specifier and existence-checking disabled
(empty invalid set), a second editor pass over the file produced by the first
pass yields byte-identical file content. -/
theorem editor_idempotent_unflagged (content : List Char) (specOf : List Char → List Char) :
    joinNewline (edit_reqs_file_specs
        (read_reqs_file (joinNewline
          (edit_reqs_file_specs (read_reqs_file content) [] [] specOf)))
        [] [] specOf) =
      joinNewline (edit_reqs_file_specs (read_reqs_file content) [] [] specOf) := by
  rw [edit_reqs_file_specs_id, edit_reqs_file_specs_id,
    read_reqs_file_join (fun l hl => read_reqs_file_mem hl)]

/-- C8: `compare_versions` never fails on strict-valid inputs; whenever a
Range input has at least two comma-separated fields, range validation never
crashes, because both endpoints are strict-checked before `compare_versions`
runs (short-circuit `and`); concretely, a wildcard endpoint yields an invalid
result even though `compare_versions` alone would fail to parse it. -/
theorem compare_guarded_by_strict_check :
    (∀ v1 v2 : String, is_valid_strict_version v1 = true →
        is_valid_strict_version v2 = true → compare_versions v1 v2 ≠ none) ∧
    (∀ s : String, ',' ∈ s.data → is_valid_range_version s ≠ none) ∧
    is_valid_range_version "1.*,2.0" = some false ∧
    compare_versions "1.*" "2.0" = none := by
  refine ⟨?_, ?_, by decide, by decide⟩
  · intro v1 v2 h1 h2
    rcases compare_versions_isSome_of_strict h1 h2 with ⟨c, hc⟩
    rw [hc]
    simp
  · intro s hmem
    rcases splitOnChar_two_fields hmem with ⟨a, b, rest, hsplit⟩
    rw [is_valid_range_version, hsplit]
    by_cases hs1 : is_valid_strict_version ⟨pyStripChars a⟩
    · by_cases hs2 : is_valid_strict_version ⟨pyStripChars b⟩
      · rcases compare_versions_isSome_of_strict hs1 hs2 with ⟨c, hc⟩
        simp [hs1, hs2, hc]
      · simp [hs1, hs2]
    · simp [hs1]

/-- Witness for C8's general parts at concrete inputs. -/
theorem compare_guarded_by_strict_check_witness :
    compare_versions "1.0" "2.0" ≠ none ∧ is_valid_range_version "1.0,2.0" ≠ none :=
  ⟨compare_guarded_by_strict_check.1 "1.0" "2.0" (by decide) (by decide),
   compare_guarded_by_strict_check.2.1 "1.0,2.0" (by decide)⟩

/-- C6: for a Range input `low,high` (one comma, each side comma-free), the
input is valid iff both stripped endpoints are strict-valid and
`compare_versions` orders them strictly; the rendered specifier for valid
range input `1.0,2.0` is `>=1.0,<2.0`, while `2.0,1.0` and `1.0,1.0` are
invalid. -/
theorem range_validity_spec :
    (∀ low high : String, ',' ∉ low.data → ',' ∉ high.data →
      (is_valid_range_version (low ++ "," ++ high) = some true ↔
        (is_valid_strict_version (pyStrip low) = true ∧
         is_valid_strict_version (pyStrip high) = true ∧
         ∃ c, compare_versions (pyStrip low) (pyStrip high) = some c ∧ c < 0))) ∧
    is_valid_range_version "1.0,2.0" = some true ∧
    prompt_validate_specifier VersionSpec.RANGE ["1.0", "2.0"] = some (true, ">=1.0,<2.0") ∧
    is_valid_range_version "2.0,1.0" = some false ∧
    is_valid_range_version "1.0,1.0" = some false := by
  refine ⟨?_, by decide, by decide, by decide, by decide⟩
  intro low high h1 h2
  have hdata : (low ++ "," ++ high).data = low.data ++ ',' :: high.data := by
    rw [String.data_append, String.data_append]
    simp
  rw [is_valid_range_version.eq_def, hdata, splitOnChar_append_sep h1,
    splitOnChar_of_not_mem h2]
  by_cases hs1 : is_valid_strict_version (pyStrip low) = true
  · by_cases hs2 : is_valid_strict_version (pyStrip high) = true
    · rcases compare_versions_isSome_of_strict hs1 hs2 with ⟨c, hc⟩
      simp only [pyStrip] at hs1 hs2 hc
      simp [hs1, hs2, hc, pyStrip]
    · have hs2f : is_valid_strict_version (pyStrip high) = false :=
        Bool.not_eq_true _ ▸ Bool.eq_false_iff.mpr (fun hh => hs2 hh)
      simp only [pyStrip] at hs2f
      simp [hs2f, pyStrip]
  · have hs1f : is_valid_strict_version (pyStrip low) = false :=
      Bool.not_eq_true _ ▸ Bool.eq_false_iff.mpr (fun hh => hs1 hh)
    simp only [pyStrip] at hs1f
    simp [hs1f, pyStrip]

/-- Witness for C6's general part at a concrete input. -/
theorem range_validity_spec_witness :
    is_valid_range_version ("1.0" ++ "," ++ "2.0") = some true :=
  (range_validity_spec.1 "1.0" "2.0" (by decide) (by decide)).mpr
    ⟨by decide, by decide, -1, by decide, by decide⟩
